import Mathlib

/-!
Shallow embedding of the IR-Resources retrieval core.

Strings are modelled as lists of characters (`Word`); Python `str.lower()`
is modelled by the ASCII case map `lowerChar` (the spec restricts the system
to ASCII/Latin stemming rules, §1 non-goals).  Sources:

* `src/Ass3/group_008_p3/ir_core/stemming.py` — Porter stemmer
* `src/Ass3/group_008_p3/ir_core/retrieval.py` — Boolean search, VSM, precision/recall
* `src/Ass2/group_008_p2/ir_core/stopwords.py` — list filter, document-frequency filter
* `src/Ass2/group_008_p2_old_test_cases_2/ir_core/stopwords.py` — collection-term-frequency filter
-/

namespace IR

/-- A Python string, modelled as its list of characters. -/
abbrev Word := List Char

/-- ASCII model of Python `str.lower()` on one character:
uppercase ASCII letters are shifted into lowercase, all else unchanged. -/
def lowerChar (c : Char) : Char :=
  if 65 ≤ c.toNat ∧ c.toNat ≤ 90 then Char.ofNat (c.toNat + 32) else c

/-- `str.lower()` on a whole word. -/
def lowerWord (w : Word) : Word := w.map lowerChar

/-- Helper for `splitWS`: walks the characters, `acc` holds the reversed
current run of non-whitespace characters. -/
def splitWSAux : List Char → Word → List Word
  | [], acc => if acc = [] then [] else [acc.reverse]
  | c :: cs, acc =>
    if c.isWhitespace then
      if acc = [] then splitWSAux cs [] else acc.reverse :: splitWSAux cs []
    else
      splitWSAux cs (c :: acc)

/-- Python `str.split()` (no argument): split on runs of whitespace, dropping
empty pieces; leading/trailing whitespace is ignored, so the `.strip()` that
precedes `.split()` in the source is subsumed. -/
def splitWS (s : Word) : List Word := splitWSAux s []

/-! ## Porter stemmer (`stemming.py`) -/

/-- `is_consonant(word, i)` from `stemming.py` lines 6-21.  Out-of-range
indices give `False`; `y` is a consonant iff the preceding character is not. -/
def is_consonant (w : Word) : Nat → Bool
  | 0 =>
    if 0 < w.length then
      let c := lowerChar (w.getD 0 ' ')
      if c ∈ (['a', 'e', 'i', 'o', 'u'] : List Char) then false
      else true
    else false
  | i + 1 =>
    if i + 1 < w.length then
      let c := lowerChar (w.getD (i + 1) ' ')
      if c ∈ (['a', 'e', 'i', 'o', 'u'] : List Char) then false
      else if c = 'y' then !is_consonant w i
      else true
    else false

/-- `while i < n and is_consonant(word, i): i += 1`, with explicit fuel;
called with fuel `n - i` so that fuel 0 exactly means the bound check fails. -/
def skipConsAux (w : Word) : Nat → Nat → Nat
  | 0, i => i
  | fuel + 1, i => if is_consonant w i then skipConsAux w fuel (i + 1) else i

/-- `while i < n and not is_consonant(word, i): i += 1`, with explicit fuel. -/
def skipVowelsAux (w : Word) : Nat → Nat → Nat
  | 0, i => i
  | fuel + 1, i => if is_consonant w i then i else skipVowelsAux w fuel (i + 1)

/-- The VC-counting loop of `measure` (`stemming.py` lines 37-49): skip a
vowel run, then a consonant run, and count one measure unit; the fuel bounds
the number of loop passes (each pass strictly advances `i`, so `n + 1`
passes always suffice). -/
def measureAux (w : Word) : Nat → Nat → Nat
  | 0, _ => 0
  | fuel + 1, i =>
    if i < w.length then
      let j := skipVowelsAux w (w.length - i) i
      if j < w.length then
        let k := skipConsAux w (w.length - j) j
        measureAux w fuel k + 1
      else 0
    else 0

/-- `measure(word)` from `stemming.py` lines 23-51: skip the initial
consonant run, then count vowel-to-consonant transitions. -/
def measure (w : Word) : Nat :=
  if w.length = 0 then 0
  else measureAux w (w.length + 1) (skipConsAux w w.length 0)

/-- `contains_vowel(word)` from `stemming.py` lines 53-58. -/
def contains_vowel (w : Word) : Bool :=
  (List.range w.length).any fun i => !is_consonant w i

/-- `ends_double_consonant(word)` from `stemming.py` lines 60-65. -/
def ends_double_consonant (w : Word) : Bool :=
  if w.length < 2 then false
  else
    decide (w.getD (w.length - 1) ' ' = w.getD (w.length - 2) ' ') &&
      is_consonant w (w.length - 1)

/-- `cvc_ending(word)` from `stemming.py` lines 67-76. -/
def cvc_ending (w : Word) : Bool :=
  if w.length < 3 then false
  else
    is_consonant w (w.length - 3) &&
      !is_consonant w (w.length - 2) &&
      is_consonant w (w.length - 1) &&
      !decide (w.getD (w.length - 1) ' ' ∈ (['w', 'x', 'y'] : List Char))

/-- Python `word.endswith(s)`: the last `len(s)` characters equal `s`. -/
def endsWith (w s : Word) : Bool := decide (w.drop (w.length - s.length) = s)

/-- Step 1a (`stemming.py` lines 93-101): plural normalization. -/
def step1a (w : Word) : Word :=
  if endsWith w ['s', 's', 'e', 's'] then w.take (w.length - 2)
  else if endsWith w ['i', 'e', 's'] then w.take (w.length - 2)
  else if endsWith w ['s', 's'] then w
  else if endsWith w ['s'] && decide (1 < w.length) then w.take (w.length - 1)
  else w

/-- The post-processing fix-up shared by the `ed` and `ing` branches of
step 1b (`stemming.py` lines 112-122 and 127-137). -/
def step1bPost (w : Word) : Word :=
  if endsWith w ['a', 't'] then w ++ ['e']
  else if endsWith w ['b', 'l'] then w ++ ['e']
  else if endsWith w ['i', 'z'] then w ++ ['e']
  else if ends_double_consonant w &&
      !decide (w.getD (w.length - 1) ' ' ∈ (['l', 's', 'z'] : List Char)) then
    w.take (w.length - 1)
  else if decide (measure w = 1) && cvc_ending w then w ++ ['e']
  else w

/-- Step 1b (`stemming.py` lines 103-137): past-tense normalization. -/
def step1b (w : Word) : Word :=
  if endsWith w ['e', 'e', 'd'] then
    if 0 < measure (w.take (w.length - 3)) then w.take (w.length - 1) else w
  else if endsWith w ['e', 'd'] then
    if contains_vowel (w.take (w.length - 2)) then step1bPost (w.take (w.length - 2)) else w
  else if endsWith w ['i', 'n', 'g'] then
    if contains_vowel (w.take (w.length - 3)) then step1bPost (w.take (w.length - 3)) else w
  else w

/-- Step 1c (`stemming.py` lines 139-141): trailing `y` to `i` after a vowel. -/
def step1c (w : Word) : Word :=
  if endsWith w ['y'] && contains_vowel (w.take (w.length - 1)) then
    w.take (w.length - 1) ++ ['i']
  else w

/-- The shared suffix-substitution loop of steps 2 and 3: the first suffix of
the list that matches is substituted, and only when the measure of the stem
before it is positive; in every case the loop then stops (`break`). -/
def applyFirstRule : List (Word × Word) → Word → Word
  | [], w => w
  | (suf, rep) :: rest, w =>
    if endsWith w suf then
      if 0 < measure (w.take (w.length - suf.length)) then
        w.take (w.length - suf.length) ++ rep
      else w
    else applyFirstRule rest w

/-- The step 2 rule list (`stemming.py` lines 144-150), in source order. -/
def step2rules : List (Word × Word) :=
  [(['a','t','i','o','n','a','l'], ['a','t','e']),
   (['t','i','o','n','a','l'], ['t','i','o','n']),
   (['e','n','c','i'], ['e','n','c','e']),
   (['a','n','c','i'], ['a','n','c','e']),
   (['i','z','e','r'], ['i','z','e']),
   (['a','b','l','i'], ['a','b','l','e']),
   (['a','l','l','i'], ['a','l']),
   (['e','n','t','l','i'], ['e','n','t']),
   (['e','l','i'], ['e']),
   (['o','u','s','l','i'], ['o','u','s']),
   (['i','z','a','t','i','o','n'], ['i','z','e']),
   (['a','t','i','o','n'], ['a','t','e']),
   (['a','t','o','r'], ['a','t','e']),
   (['a','l','i','s','m'], ['a','l']),
   (['i','v','e','n','e','s','s'], ['i','v','e']),
   (['f','u','l','n','e','s','s'], ['f','u','l']),
   (['o','u','s','n','e','s','s'], ['o','u','s']),
   (['a','l','i','t','i'], ['a','l']),
   (['i','v','i','t','i'], ['i','v','e']),
   (['b','i','l','i','t','i'], ['b','l','e'])]

/-- The step 3 rule list (`stemming.py` lines 160-163), in source order. -/
def step3rules : List (Word × Word) :=
  [(['i','c','a','t','e'], ['i','c']),
   (['a','t','i','v','e'], []),
   (['a','l','i','z','e'], ['a','l']),
   (['i','c','i','t','i'], ['i','c']),
   (['i','c','a','l'], ['i','c']),
   (['f','u','l'], []),
   (['n','e','s','s'], [])]

/-- The step 4 suffix list (`stemming.py` lines 173-176), in source order. -/
def step4rules : List Word :=
  [['a','l'], ['a','n','c','e'], ['e','n','c','e'], ['e','r'], ['i','c'],
   ['a','b','l','e'], ['i','b','l','e'], ['a','n','t'], ['e','m','e','n','t'],
   ['m','e','n','t'], ['e','n','t'], ['i','o','n'], ['o','u'], ['i','s','m'],
   ['a','t','e'], ['i','t','i'], ['o','u','s'], ['i','v','e'], ['i','z','e']]

/-- The step 4 loop (`stemming.py` lines 178-187): first matching suffix is
removed only if the stem measure exceeds 1; for `ion` additionally the stem
must end in `s` or `t`; in every case the loop stops at the first match. -/
def step4go : List Word → Word → Word
  | [], w => w
  | suf :: rest, w =>
    if endsWith w suf then
      if 1 < measure (w.take (w.length - suf.length)) then
        if suf = ['i', 'o', 'n'] then
          if 0 < (w.take (w.length - suf.length)).length ∧
              (w.take (w.length - suf.length)).getD
                ((w.take (w.length - suf.length)).length - 1) ' ' ∈
                (['s', 't'] : List Char) then
            w.take (w.length - suf.length)
          else w
        else w.take (w.length - suf.length)
      else w
    else step4go rest w

/-- Step 2 of the stemmer. -/
def step2 (w : Word) : Word := applyFirstRule step2rules w

/-- Step 3 of the stemmer. -/
def step3 (w : Word) : Word := applyFirstRule step3rules w

/-- Step 4 of the stemmer. -/
def step4 (w : Word) : Word := step4go step4rules w

/-- Step 5a (`stemming.py` lines 189-194): trailing `e` removal. -/
def step5a (w : Word) : Word :=
  if endsWith w ['e'] then
    if 1 < measure (w.take (w.length - 1)) ∨
        (measure (w.take (w.length - 1)) = 1 ∧
          cvc_ending (w.take (w.length - 1)) = false) then
      w.take (w.length - 1)
    else w
  else w

/-- Step 5b (`stemming.py` lines 196-198): double `l` collapse. -/
def step5b (w : Word) : Word :=
  if 1 < measure w ∧ ends_double_consonant w = true ∧ endsWith w ['l'] = true then
    w.take (w.length - 1)
  else w

/-- `stem_term(word)` from `stemming.py` lines 78-200: words of length at
most 2 are only lowercased; otherwise the word is lowercased and the five
Porter rule groups are applied in source order. -/
def stem_term (w : Word) : Word :=
  if w.length ≤ 2 then lowerWord w
  else step5b (step5a (step4 (step3 (step2 (step1c (step1b (step1a (lowerWord w))))))))

/-! ## Data model (spec §3; `document.py` is out of scope, its fields are) -/

/-- A document record: identity, display metadata, the immutable token list
`terms`, and the three derived term views.  The Python attribute/callable
duality of the derived fields is modelled by plain lists (a callable view is
its returned list). -/
structure Document where
  document_id : Nat
  title : Word
  author : Word
  origin : Word
  raw_text : Word
  terms : List Word
  filtered_terms : List Word
  stemmed_terms : List Word
  filtered_stemmed_terms : List Word
deriving DecidableEq

/-! ## Retrieval engine (`retrieval.py`) -/

/-- The term-view selection shared verbatim by `linear_boolean_search`
(`retrieval.py` lines 38-74) and `vector_space_search` (lines 130-162):
raw, filtered, stemmed, or filtered+stemmed terms, with on-the-fly stemming
fallbacks when a stemmed view is empty. -/
def selected_terms (doc : Document) (stopword_filtered stemmed : Bool) : List Word :=
  if stemmed && stopword_filtered then
    let ts := doc.filtered_stemmed_terms
    if ts = [] then
      if doc.filtered_terms ≠ [] then doc.filtered_terms.map stem_term else []
    else ts
  else if stemmed then
    let ts := doc.stemmed_terms
    if ts = [] then doc.terms.map stem_term else ts
  else if stopword_filtered then doc.filtered_terms
  else doc.terms

/-- The selected term view, lowercased for comparison (`retrieval.py`
lines 77 and 165). -/
def lowered_view (doc : Document) (stopword_filtered stemmed : Bool) : List Word :=
  (selected_terms doc stopword_filtered stemmed).map lowerWord

/-- `linear_boolean_search(query, collection, stopword_filtered, stemmed)`
from `retrieval.py` lines 8-95: conjunctive Boolean scan.  Python's
membership test in `set(lowercase_terms)` is list membership here. -/
def linear_boolean_search (query : Word) (collection : List Document)
    (stopword_filtered stemmed : Bool) : List (Nat × Document) :=
  let query_terms := splitWS (lowerWord query)
  if query_terms = [] then collection.map fun doc => (0, doc)
  else
    let qt := if stemmed then query_terms.map stem_term else query_terms
    let results := collection.map fun doc =>
      if qt.all (fun t => decide (t ∈ lowered_view doc stopword_filtered stemmed)) then
        (1, doc)
      else (0, doc)
    if stemmed then results.filter (fun r => decide (r.1 = 1)) else results

/-- The term frequency of `t` in a document's lowercased selected view
(`retrieval.py` lines 168-170, `term_counts`). -/
def term_count (doc : Document) (stopword_filtered stemmed : Bool) (t : Word) : Nat :=
  (lowered_view doc stopword_filtered stemmed).count t

/-- The posting list `inverted_index[t]` (`retrieval.py` lines 124-177):
the pairs `(document_id, tf)` for the documents whose view contains `t`,
in collection order.  A term with an empty posting list is exactly a term
absent from the Python `defaultdict` index. -/
def postings (collection : List Document) (stopword_filtered stemmed : Bool)
    (t : Word) : List (Nat × Nat) :=
  collection.filterMap fun doc =>
    let c := term_count doc stopword_filtered stemmed t
    if c ≠ 0 then some (doc.document_id, c) else none

/-- `doc_frequencies[t]` (`retrieval.py` lines 180-184): the length of the
posting list. -/
def doc_frequency (collection : List Document) (stopword_filtered stemmed : Bool)
    (t : Word) : Nat :=
  (postings collection stopword_filtered stemmed t).length

/-- `idf = math.log(total_docs / df) if df > 0 else 0` (`retrieval.py`
line 195), with exact real arithmetic for Python floats. -/
noncomputable def idf (collection : List Document) (stopword_filtered stemmed : Bool)
    (t : Word) : ℝ :=
  if 0 < doc_frequency collection stopword_filtered stemmed t then
    Real.log ((collection.length : ℝ) / (doc_frequency collection stopword_filtered stemmed t : ℝ))
  else 0

/-- `tf_weight = 1 + math.log(tf) if tf > 0 else 0` (`retrieval.py` line 200). -/
noncomputable def tf_weight (tf : Nat) : ℝ :=
  if 0 < tf then 1 + Real.log (tf : ℝ) else 0

/-- The accumulated `doc_scores[id]` (`retrieval.py` lines 187-202): for every
query term (with multiplicity, as the Python loop iterates the list), the sum
of `tf_weight * idf` over the postings of that term carrying this document id.
A query term absent from the index has an empty posting list and contributes
nothing, which is the `continue` on line 190. -/
noncomputable def doc_scores (collection : List Document)
    (stopword_filtered stemmed : Bool) (query_terms : List Word) (id : Nat) : ℝ :=
  (query_terms.map fun q =>
    (((postings collection stopword_filtered stemmed q).filter
        (fun p => decide (p.1 = id))).map
      (fun p => tf_weight p.2 * idf collection stopword_filtered stemmed q)).sum).sum

/-- `vector_space_search(query, collection, stopword_filtered, stemmed)` from
`retrieval.py` lines 98-212: tf-idf additive scoring; one `(score, document)`
pair per collection entry, in collection order (line 208's loop). -/
noncomputable def vector_space_search (query : Word) (collection : List Document)
    (stopword_filtered stemmed : Bool) : List (ℝ × Document) :=
  if collection = [] then []
  else
    let query_terms := splitWS (lowerWord query)
    if query_terms = [] then collection.map fun doc => ((0 : ℝ), doc)
    else
      let qt := if stemmed then query_terms.map stem_term else query_terms
      collection.map fun doc =>
        (doc_scores collection stopword_filtered stemmed qt doc.document_id, doc)

/-- `precision_recall(retrieved_ids, relevant_ids)` from `retrieval.py`
lines 215-242, with exact rationals for Python float division. -/
def precision_recall (retrieved_ids relevant_ids : Finset ℕ) : ℚ × ℚ :=
  if retrieved_ids = ∅ ∧ relevant_ids = ∅ then (0, 0)
  else if retrieved_ids = ∅ then (0, 0)
  else if relevant_ids = ∅ then (0, 0)
  else
    (((retrieved_ids ∩ relevant_ids).card : ℚ) / (retrieved_ids.card : ℚ),
     ((retrieved_ids ∩ relevant_ids).card : ℚ) / (relevant_ids.card : ℚ))

/-! ## Stopword filtering (`Ass2/group_008_p2/ir_core/stopwords.py` and
`Ass2/group_008_p2_old_test_cases_2/ir_core/stopwords.py`).

`remove_stopwords_by_list` is character-identical in the two files (up to the
attribute name it assigns); it is defined once, in namespace `P2`.  The two
`remove_stopwords_by_frequency` variants differ: `P2` uses document
frequency, `P2Old` uses collection term frequency.  In-place mutation of the
document becomes a returned updated record.  Python float thresholds and
divisions are modelled by exact rationals. -/

namespace P2

/-- `remove_stopwords_by_list(doc, stopwords)` (`p2/stopwords.py` lines 4-24):
keep each term whose lowercased form is not a stopword, storing it
lowercased; the loop appends to an accumulator. -/
def remove_stopwords_by_list (doc : Document) (stopwords : Finset Word) : Document :=
  { doc with
    filtered_terms :=
      doc.terms.foldl
        (fun acc term =>
          if lowerWord term ∉ stopwords then acc ++ [lowerWord term] else acc)
        [] }

/-- `term_doc_counts[t]` (`p2/stopwords.py` lines 42-49): the number of
reference documents whose `terms` contain `t` at least once (each document
is deduplicated through `set(document.terms)`). -/
def term_doc_count (collection : List Document) (t : Word) : Nat :=
  (collection.filter fun doc => decide (t ∈ doc.terms)).length

/-- The stopword set of `p2/stopwords.py` lines 59-68: among the terms that
occur in the reference collection (the keys of `term_doc_counts`), those
whose document frequency is `≥ common` or `≤ rare`. -/
def frequency_stopwords (collection : List Document)
    (rare_frequency common_frequency : ℚ) : Finset Word :=
  ((collection.map Document.terms).flatten.toFinset).filter fun t =>
    common_frequency ≤ (term_doc_count collection t : ℚ) / (collection.length : ℚ) ∨
      (term_doc_count collection t : ℚ) / (collection.length : ℚ) ≤ rare_frequency

/-- `remove_stopwords_by_frequency(doc, collection, rare_frequency,
common_frequency)` (`p2/stopwords.py` lines 27-78): empty reference
collection gives an empty result; otherwise each raw term not in the
stopword set is kept, stored lowercased. -/
def remove_stopwords_by_frequency (doc : Document) (collection : List Document)
    (rare_frequency common_frequency : ℚ) : Document :=
  if collection.length = 0 then { doc with filtered_terms := [] }
  else
    { doc with
      filtered_terms :=
        doc.terms.foldl
          (fun acc term =>
            if term ∉ frequency_stopwords collection rare_frequency common_frequency then
              acc ++ [lowerWord term]
            else acc)
          [] }

end P2

namespace P2Old

/-- `term_frequencies[t]` (`old/stopwords.py` lines 43-49): the total number
of occurrences of `t` across all reference documents. -/
def collection_term_count (collection : List Document) (t : Word) : Nat :=
  (collection.map fun doc => doc.terms.count t).sum

/-- `total_terms` (`old/stopwords.py` line 52): the total number of term
occurrences in the reference collection. -/
def total_term_count (collection : List Document) : Nat :=
  (collection.map fun doc => doc.terms.length).sum

/-- The stopword set of `old/stopwords.py` lines 59-68: among the occurring
terms, those whose share of all term occurrences is `≥ common` or `≤ rare`. -/
def frequency_stopwords (collection : List Document)
    (common_frequency rare_frequency : ℚ) : Finset Word :=
  ((collection.map Document.terms).flatten.toFinset).filter fun t =>
    common_frequency ≤
        (collection_term_count collection t : ℚ) / (total_term_count collection : ℚ) ∨
      (collection_term_count collection t : ℚ) / (total_term_count collection : ℚ) ≤
        rare_frequency

/-- `remove_stopwords_by_frequency(doc, collection, common_frequency,
rare_frequency)` (`old/stopwords.py` lines 29-78); note the swapped
threshold order relative to the `P2` variant. -/
def remove_stopwords_by_frequency (doc : Document) (collection : List Document)
    (common_frequency rare_frequency : ℚ) : Document :=
  if total_term_count collection = 0 then { doc with filtered_terms := [] }
  else
    { doc with
      filtered_terms :=
        doc.terms.foldl
          (fun acc term =>
            if term ∉ frequency_stopwords collection common_frequency rare_frequency then
              acc ++ [lowerWord term]
            else acc)
          [] }

end P2Old

/-! ## Auxiliary predicates and test fixtures -/

/-- Every alphabetic character of the word is lowercase. -/
def LowerAlpha (w : Word) : Prop :=
  ∀ c ∈ w, c.isAlpha = true → c.isLower = true

instance decLowerAlpha (w : Word) : Decidable (LowerAlpha w) :=
  List.decidableBAll _ w

/-- Fixture: a document carrying only an id and a raw term list. -/
def mkDoc (id : Nat) (ts : List Word) : Document :=
  ⟨id, [], [], [], [], ts, [], [], []⟩

/-- Fixture word `cat`. -/
def tCat : Word := ['c', 'a', 't']

/-- Fixture word `dog`. -/
def tDog : Word := ['d', 'o', 'g']

/-- Fixture word `the`. -/
def tThe : Word := ['t', 'h', 'e']

/-- Fixture word `sat`. -/
def tSat : Word := ['s', 'a', 't']

/-- Fixture document 0 with terms `cat sat`. -/
def docCatSat : Document := mkDoc 0 [tCat, tSat]

/-- Fixture document 1 with terms `the dog`. -/
def docTheDog : Document := mkDoc 1 [tThe, tDog]

/-- Fixture document 2 with terms `cat dog`. -/
def docCatDog : Document := mkDoc 2 [tCat, tDog]

/-- Fixture document 1 with no terms. -/
def docNone1 : Document := mkDoc 1 []

/-- Fixture document 1 with single term `dog`. -/
def docDog1 : Document := mkDoc 1 [tDog]

/-! ## Character-level lemmas -/

theorem toNat_ofNat_char (n : Nat) (h2 : n ≤ 122) : (Char.ofNat n).toNat = n := by
  have hv : n.isValidChar := Or.inl (by omega)
  unfold Char.ofNat
  rw [dif_pos hv]
  unfold Char.ofNatAux Char.toNat
  simp [UInt32.toNat, BitVec.toNat_ofNatLt]

theorem isLower_iff (c : Char) : c.isLower = true ↔ 97 ≤ c.toNat ∧ c.toNat ≤ 122 := by
  unfold Char.isLower
  simp only [Bool.and_eq_true, decide_eq_true_eq]
  exact Iff.rfl

theorem isUpper_iff (c : Char) : c.isUpper = true ↔ 65 ≤ c.toNat ∧ c.toNat ≤ 90 := by
  unfold Char.isUpper
  simp only [Bool.and_eq_true, decide_eq_true_eq]
  exact Iff.rfl

theorem isAlpha_iff (c : Char) : c.isAlpha = true ↔ c.isUpper = true ∨ c.isLower = true := by
  unfold Char.isAlpha
  simp

theorem lowerChar_isLower (c : Char) :
    (lowerChar c).isAlpha = true → (lowerChar c).isLower = true := by
  intro h
  unfold lowerChar at *
  by_cases hc : 65 ≤ c.toNat ∧ c.toNat ≤ 90
  · rw [if_pos hc] at *
    rw [isLower_iff]
    rw [toNat_ofNat_char (c.toNat + 32) (by omega)]
    omega
  · rw [if_neg hc] at *
    rcases (isAlpha_iff c).mp h with h1 | h1
    · exact absurd ((isUpper_iff c).mp h1) hc
    · exact h1

theorem lowerChar_of_not_upper {c : Char} (h : ¬(65 ≤ c.toNat ∧ c.toNat ≤ 90)) :
    lowerChar c = c := by
  unfold lowerChar
  rw [if_neg h]

theorem lowerChar_idem (c : Char) : lowerChar (lowerChar c) = lowerChar c := by
  by_cases hc : 65 ≤ c.toNat ∧ c.toNat ≤ 90
  · have h1 : (lowerChar c).toNat = c.toNat + 32 := by
      unfold lowerChar
      rw [if_pos hc]
      exact toNat_ofNat_char (c.toNat + 32) (by omega)
    exact lowerChar_of_not_upper (by omega)
  · rw [lowerChar_of_not_upper hc, lowerChar_of_not_upper hc]

theorem lowerWord_idem (w : Word) : lowerWord (lowerWord w) = lowerWord w := by
  unfold lowerWord
  rw [List.map_map]
  exact List.map_congr_left fun c _ => lowerChar_idem c

theorem lowerWord_lowerAlpha (w : Word) : LowerAlpha (lowerWord w) := by
  intro c hc
  rcases List.mem_map.mp hc with ⟨a, _, rfl⟩
  exact lowerChar_isLower a

theorem lowerAlpha_append {v w : Word} (hv : LowerAlpha v) (hw : LowerAlpha w) :
    LowerAlpha (v ++ w) := by
  intro c hc
  rcases List.mem_append.mp hc with h | h
  · exact hv c h
  · exact hw c h

theorem lowerAlpha_take {w : Word} (n : Nat) (hw : LowerAlpha w) : LowerAlpha (w.take n) :=
  fun c hc => hw c ((List.take_sublist n w).subset hc)

/-! ## Generic loop lemmas -/

/-- The append-accumulating filter loop used by all three stopword filters. -/
theorem foldl_keep_eq {α β : Type} (P : α → Prop) [DecidablePred P] (g : α → β)
    (l : List α) (acc : List β) :
    l.foldl (fun acc a => if P a then acc ++ [g a] else acc) acc =
      acc ++ (l.filter fun a => decide (P a)).map g := by
  induction l generalizing acc with
  | nil => simp
  | cons a l ih =>
    by_cases h : P a
    · simp [List.foldl_cons, if_pos h, h, ih]
    · simp [List.foldl_cons, if_neg h, h, ih]

theorem lowerChar_whitespace {c : Char} (h : c.isWhitespace = true) : lowerChar c = c := by
  unfold Char.isWhitespace at h
  simp only [Bool.or_eq_true, decide_eq_true_eq] at h
  refine lowerChar_of_not_upper ?_
  rcases h with ((h | h) | h) | h <;> subst h <;> decide

theorem splitWSAux_all_ws {s : List Char} (h : ∀ c ∈ s, c.isWhitespace = true) :
    splitWSAux s [] = [] := by
  induction s with
  | nil => rfl
  | cons c cs ih =>
    unfold splitWSAux
    rw [if_pos (h c (List.mem_cons_self c cs)), if_pos rfl]
    exact ih fun x hx => h x (List.mem_cons_of_mem c hx)

theorem splitWS_all_ws {s : Word} (h : ∀ c ∈ s, c.isWhitespace = true) :
    splitWS (lowerWord s) = [] := by
  unfold splitWS
  refine splitWSAux_all_ws fun c hc => ?_
  rcases List.mem_map.mp hc with ⟨a, ha, rfl⟩
  rw [lowerChar_whitespace (h a ha)]
  exact h a ha

/-! ## Claim theorems: stemmer basics -/

/-- C9: for every token of length at most 2, `stem_term` returns the token
lowercased and otherwise unchanged — no Porter rule group is applied. -/
theorem stem_term_short_tokens (w : Word) (h : w.length ≤ 2) :
    stem_term w = lowerWord w := by
  unfold stem_term
  rw [if_pos h]

/-- Witness for C9 at the concrete token `AB`. -/
theorem stem_term_short_tokens_witness :
    (['A', 'B'] : Word).length ≤ 2 ∧ stem_term ['A', 'B'] = lowerWord ['A', 'B'] :=
  ⟨by decide, stem_term_short_tokens ['A', 'B'] (by decide)⟩

/-- C3 counterexample: the claim asserts `stem_term "agreed" == "agree"`, but
the code stems `agreed` to `agre`: after step 1b rewrites `eed` to `ee`,
step 5a strips the trailing `e` because the stem `agre` has measure 1 and no
CVC ending. -/
theorem stem_term_agreed_counterexample :
    stem_term ['a', 'g', 'r', 'e', 'e', 'd'] = ['a', 'g', 'r', 'e'] ∧
      stem_term ['a', 'g', 'r', 'e', 'e', 'd'] ≠ ['a', 'g', 'r', 'e', 'e'] := by
  decide

/-- C3 (amended): the Porter known vectors as the code computes them:
`caresses → caress`, `ponies → poni`, `agreed → agre` (not `agree`: step 5a
also strips the final `e`), `feed → feed` (the measure-0 stem `f` blocks
`eed → ee`), `plastered → plaster`, `motoring → motor`. -/
theorem stem_term_known_vectors :
    stem_term ['c', 'a', 'r', 'e', 's', 's', 'e', 's'] = ['c', 'a', 'r', 'e', 's', 's'] ∧
      stem_term ['p', 'o', 'n', 'i', 'e', 's'] = ['p', 'o', 'n', 'i'] ∧
      stem_term ['a', 'g', 'r', 'e', 'e', 'd'] = ['a', 'g', 'r', 'e'] ∧
      stem_term ['f', 'e', 'e', 'd'] = ['f', 'e', 'e', 'd'] ∧
      stem_term ['p', 'l', 'a', 's', 't', 'e', 'r', 'e', 'd'] =
        ['p', 'l', 'a', 's', 't', 'e', 'r'] ∧
      stem_term ['m', 'o', 't', 'o', 'r', 'i', 'n', 'g'] = ['m', 'o', 't', 'o', 'r'] := by
  decide

/-! ## Claim theorems: precision/recall -/

/-- C5: `precision_recall` returns the intersection ratios when both sets
are non-empty and exactly `(0, 0)` when either set is empty; in particular
on the three concrete inputs of the spec. -/
theorem precision_recall_spec :
    (∀ R S : Finset ℕ, R.Nonempty → S.Nonempty →
      precision_recall R S =
        (((R ∩ S).card : ℚ) / (R.card : ℚ), ((R ∩ S).card : ℚ) / (S.card : ℚ)))
    ∧ (∀ R S : Finset ℕ, R = ∅ ∨ S = ∅ → precision_recall R S = (0, 0))
    ∧ precision_recall {1, 2} {2, 3} = (1 / 2, 1 / 2)
    ∧ precision_recall ∅ {1, 2} = (0, 0)
    ∧ precision_recall {1, 2} ∅ = (0, 0) := by
  have hne : ∀ R S : Finset ℕ, R.Nonempty → S.Nonempty →
      precision_recall R S =
        (((R ∩ S).card : ℚ) / (R.card : ℚ), ((R ∩ S).card : ℚ) / (S.card : ℚ)) := by
    intro R S hR hS
    have hR' := Finset.nonempty_iff_ne_empty.mp hR
    have hS' := Finset.nonempty_iff_ne_empty.mp hS
    unfold precision_recall
    rw [if_neg (by tauto), if_neg hR', if_neg hS']
  have hemp : ∀ R S : Finset ℕ, R = ∅ ∨ S = ∅ → precision_recall R S = (0, 0) := by
    intro R S h
    unfold precision_recall
    rcases h with h | h
    · subst h
      by_cases hS : S = ∅
      · rw [if_pos ⟨rfl, hS⟩]
      · rw [if_neg (by tauto), if_pos rfl]
    · subst h
      by_cases hR : R = ∅
      · rw [if_pos ⟨hR, rfl⟩]
      · rw [if_neg (by tauto), if_neg hR, if_pos rfl]
  refine ⟨hne, hemp, ?_, hemp ∅ {1, 2} (Or.inl rfl), hemp {1, 2} ∅ (Or.inr rfl)⟩
  rw [hne {1, 2} {2, 3} ⟨1, by decide⟩ ⟨2, by decide⟩]
  have e1 : (({1, 2} : Finset ℕ) ∩ {2, 3}).card = 1 := by decide
  have e2 : ({1, 2} : Finset ℕ).card = 2 := by decide
  have e3 : ({2, 3} : Finset ℕ).card = 2 := by decide
  rw [e1, e2, e3]
  norm_num

/-- Witness for C5: the non-empty branch applied at `{1,2}`, `{2,3}`. -/
theorem precision_recall_spec_witness :
    precision_recall {1, 2} {2, 3} =
      ((({1, 2} ∩ {2, 3} : Finset ℕ).card : ℚ) / (({1, 2} : Finset ℕ).card : ℚ),
       (({1, 2} ∩ {2, 3} : Finset ℕ).card : ℚ) / (({2, 3} : Finset ℕ).card : ℚ)) :=
  precision_recall_spec.1 {1, 2} {2, 3} ⟨1, by decide⟩ ⟨2, by decide⟩

/-! ## Claim theorems: list-based stopword filter -/

/-- C7: the list filter stores exactly the terms whose lowercased form is
not a stopword, lowercased, in order; hence the result is no longer than
`terms`, every kept word is lowercase, it is a subsequence of the lowercased
`terms`, and `terms` and `raw_text` are untouched. -/
theorem remove_stopwords_by_list_spec (doc : Document) (stopwords : Finset Word) :
    (P2.remove_stopwords_by_list doc stopwords).filtered_terms =
      ((doc.terms.filter fun t => decide (lowerWord t ∉ stopwords)).map lowerWord)
    ∧ (P2.remove_stopwords_by_list doc stopwords).filtered_terms.length ≤ doc.terms.length
    ∧ (∀ w ∈ (P2.remove_stopwords_by_list doc stopwords).filtered_terms, lowerWord w = w)
    ∧ (P2.remove_stopwords_by_list doc stopwords).filtered_terms.Sublist
        (doc.terms.map lowerWord)
    ∧ (P2.remove_stopwords_by_list doc stopwords).terms = doc.terms
    ∧ (P2.remove_stopwords_by_list doc stopwords).raw_text = doc.raw_text := by
  have hmain : (P2.remove_stopwords_by_list doc stopwords).filtered_terms =
      ((doc.terms.filter fun t => decide (lowerWord t ∉ stopwords)).map lowerWord) := by
    unfold P2.remove_stopwords_by_list
    exact foldl_keep_eq (fun t => lowerWord t ∉ stopwords) lowerWord doc.terms []
  refine ⟨hmain, ?_, ?_, ?_, rfl, rfl⟩
  · rw [hmain, List.length_map]
    exact (List.length_filter_le _ _).trans (le_refl _)
  · intro w hw
    rw [hmain] at hw
    rcases List.mem_map.mp hw with ⟨a, _, rfl⟩
    exact lowerWord_idem a
  · rw [hmain]
    exact (List.filter_sublist doc.terms).map lowerWord

/-- Witness for C7 on the end-to-end fixture: document 0 with terms
`the cat sat` filtered by the stopword list `{the}`. -/
theorem remove_stopwords_by_list_spec_witness :
    (P2.remove_stopwords_by_list (mkDoc 0 [tThe, tCat, tSat]) {tThe}).filtered_terms =
      (((mkDoc 0 [tThe, tCat, tSat]).terms.filter
          fun t => decide (lowerWord t ∉ ({tThe} : Finset Word))).map lowerWord) :=
  (remove_stopwords_by_list_spec (mkDoc 0 [tThe, tCat, tSat]) {tThe}).1

/-! ## Claim theorems: frequency-based stopword filters -/

theorem term_doc_count_pos_iff (collection : List Document) (t : Word) :
    0 < P2.term_doc_count collection t ↔
      t ∈ (collection.map Document.terms).flatten := by
  unfold P2.term_doc_count
  constructor
  · intro h
    rcases List.exists_mem_of_ne_nil _ (List.length_pos.mp h) with ⟨d, hd⟩
    rcases List.mem_filter.mp hd with ⟨hdc, hdt⟩
    exact List.mem_flatten.mpr ⟨d.terms, List.mem_map_of_mem Document.terms hdc,
      of_decide_eq_true hdt⟩
  · intro h
    rcases List.mem_flatten.mp h with ⟨l, hl, htl⟩
    rcases List.mem_map.mp hl with ⟨d, hdc, rfl⟩
    exact List.length_pos.mpr (List.ne_nil_of_mem
      (List.mem_filter.mpr ⟨hdc, decide_eq_true htl⟩))

theorem collection_term_count_pos_iff (collection : List Document) (t : Word) :
    0 < P2Old.collection_term_count collection t ↔
      t ∈ (collection.map Document.terms).flatten := by
  unfold P2Old.collection_term_count
  rw [Nat.pos_iff_ne_zero, Ne, List.sum_eq_zero_iff]
  constructor
  · intro h
    push_neg at h
    rcases h with ⟨n, hn, hnz⟩
    rcases List.mem_map.mp hn with ⟨d, hdc, rfl⟩
    exact List.mem_flatten.mpr ⟨d.terms, List.mem_map_of_mem Document.terms hdc,
      List.count_pos_iff.mp (Nat.pos_of_ne_zero hnz)⟩
  · intro h hall
    rcases List.mem_flatten.mp h with ⟨l, hl, htl⟩
    rcases List.mem_map.mp hl with ⟨d, hdc, rfl⟩
    have := hall (d.terms.count t)
      (List.mem_map_of_mem (fun doc => doc.terms.count t) hdc)
    exact absurd this (Nat.pos_iff_ne_zero.mp (List.count_pos_iff.mpr htl))

/-- C4: in both frequency-based filters, a term with defined statistics
(one occurring in the reference collection) is classified as a stopword iff
its relative frequency is `≥ common` or `≤ rare` — document frequency in the
`P2` implementation, collection term frequency in the older one — and the
kept terms are stored lowercased in `filtered_terms`. -/
theorem remove_stopwords_by_frequency_spec (doc : Document)
    (collection : List Document) (rare common : ℚ) :
    (∀ t : Word, 0 < P2.term_doc_count collection t →
      (t ∈ P2.frequency_stopwords collection rare common ↔
        common ≤ (P2.term_doc_count collection t : ℚ) / (collection.length : ℚ) ∨
          (P2.term_doc_count collection t : ℚ) / (collection.length : ℚ) ≤ rare))
    ∧ (collection ≠ [] →
        (P2.remove_stopwords_by_frequency doc collection rare common).filtered_terms =
          (doc.terms.filter fun t =>
            decide (t ∉ P2.frequency_stopwords collection rare common)).map lowerWord)
    ∧ (∀ w ∈ (P2.remove_stopwords_by_frequency doc collection rare common).filtered_terms,
        lowerWord w = w)
    ∧ (∀ t : Word, 0 < P2Old.collection_term_count collection t →
      (t ∈ P2Old.frequency_stopwords collection common rare ↔
        common ≤ (P2Old.collection_term_count collection t : ℚ) /
            (P2Old.total_term_count collection : ℚ) ∨
          (P2Old.collection_term_count collection t : ℚ) /
            (P2Old.total_term_count collection : ℚ) ≤ rare))
    ∧ (P2Old.total_term_count collection ≠ 0 →
        (P2Old.remove_stopwords_by_frequency doc collection common rare).filtered_terms =
          (doc.terms.filter fun t =>
            decide (t ∉ P2Old.frequency_stopwords collection common rare)).map lowerWord)
    ∧ (∀ w ∈ (P2Old.remove_stopwords_by_frequency doc collection common rare).filtered_terms,
        lowerWord w = w) := by
  refine ⟨?_, ?_, ?_, ?_, ?_, ?_⟩
  · intro t ht
    unfold P2.frequency_stopwords
    rw [Finset.mem_filter, List.mem_toFinset]
    exact ⟨fun h => h.2, fun h => ⟨(term_doc_count_pos_iff collection t).mp ht, h⟩⟩
  · intro hc
    unfold P2.remove_stopwords_by_frequency
    rw [if_neg (by simpa using hc)]
    exact foldl_keep_eq (fun t => t ∉ P2.frequency_stopwords collection rare common)
      lowerWord doc.terms []
  · intro w hw
    unfold P2.remove_stopwords_by_frequency at hw
    by_cases hc : collection.length = 0
    · rw [if_pos hc] at hw
      exact absurd hw (List.not_mem_nil w)
    · rw [if_neg hc] at hw
      rw [foldl_keep_eq (fun t => t ∉ P2.frequency_stopwords collection rare common)
        lowerWord doc.terms []] at hw
      rcases List.mem_map.mp hw with ⟨a, _, rfl⟩
      exact lowerWord_idem a
  · intro t ht
    unfold P2Old.frequency_stopwords
    rw [Finset.mem_filter, List.mem_toFinset]
    exact ⟨fun h => h.2, fun h => ⟨(collection_term_count_pos_iff collection t).mp ht, h⟩⟩
  · intro hc
    unfold P2Old.remove_stopwords_by_frequency
    rw [if_neg hc]
    exact foldl_keep_eq (fun t => t ∉ P2Old.frequency_stopwords collection common rare)
      lowerWord doc.terms []
  · intro w hw
    unfold P2Old.remove_stopwords_by_frequency at hw
    by_cases hc : P2Old.total_term_count collection = 0
    · rw [if_pos hc] at hw
      exact absurd hw (List.not_mem_nil w)
    · rw [if_neg hc] at hw
      rw [foldl_keep_eq (fun t => t ∉ P2Old.frequency_stopwords collection common rare)
        lowerWord doc.terms []] at hw
      rcases List.mem_map.mp hw with ⟨a, _, rfl⟩
      exact lowerWord_idem a

/-- Witness for C4: the fixture collection, thresholds rare = 1/4 and
common = 3/4; the term `cat` occurs in two of three documents. -/
theorem remove_stopwords_by_frequency_spec_witness :
    (0 < P2.term_doc_count [docCatSat, docTheDog, docCatDog] tCat) ∧
      (tCat ∈ P2.frequency_stopwords [docCatSat, docTheDog, docCatDog] (1/4) (3/4) ↔
        (3/4 : ℚ) ≤ (P2.term_doc_count [docCatSat, docTheDog, docCatDog] tCat : ℚ) /
            (([docCatSat, docTheDog, docCatDog] : List Document).length : ℚ) ∨
          (P2.term_doc_count [docCatSat, docTheDog, docCatDog] tCat : ℚ) /
            (([docCatSat, docTheDog, docCatDog] : List Document).length : ℚ) ≤ 1/4) :=
  ⟨by decide,
    (remove_stopwords_by_frequency_spec (mkDoc 0 [tCat])
      [docCatSat, docTheDog, docCatDog] (1/4) (3/4)).1 tCat (by decide)⟩

/-! ## Claim theorems: degenerate search inputs -/

/-- C6: degenerate inputs yield degenerate results: an empty collection
makes `vector_space_search` return `[]`; an empty or whitespace-only query
makes `vector_space_search` score every document 0.0 and makes
`linear_boolean_search` return every document with score 0 in all modes; and
frequency-based filtering against an empty reference collection stores an
empty `filtered_terms`. -/
theorem degenerate_inputs_spec :
    (∀ (query : Word) (sf st : Bool), vector_space_search query [] sf st = [])
    ∧ (∀ (query : Word) (collection : List Document) (sf st : Bool),
        (∀ c ∈ query, c.isWhitespace = true) →
        vector_space_search query collection sf st =
          collection.map fun d => ((0 : ℝ), d))
    ∧ (∀ (query : Word) (collection : List Document) (sf st : Bool),
        (∀ c ∈ query, c.isWhitespace = true) →
        linear_boolean_search query collection sf st = collection.map fun d => (0, d))
    ∧ (∀ (doc : Document) (rare common : ℚ),
        (P2.remove_stopwords_by_frequency doc [] rare common).filtered_terms = []
        ∧ (P2Old.remove_stopwords_by_frequency doc [] common rare).filtered_terms = []) := by
  refine ⟨?_, ?_, ?_, ?_⟩
  · intro query sf st
    unfold vector_space_search
    rw [if_pos rfl]
  · intro query collection sf st hws
    unfold vector_space_search
    by_cases hc : collection = []
    · subst hc
      rw [if_pos rfl]
      rfl
    · rw [if_neg hc]
      simp [splitWS_all_ws hws]
  · intro query collection sf st hws
    unfold linear_boolean_search
    simp [splitWS_all_ws hws]
  · intro doc rare common
    constructor
    · unfold P2.remove_stopwords_by_frequency
      simp
    · unfold P2Old.remove_stopwords_by_frequency
      simp [P2Old.total_term_count]

/-- Witness for C6: the whitespace-only query branch of both search modes on
the fixture collection. -/
theorem degenerate_inputs_spec_witness :
    vector_space_search [' ', ' '] [docCatSat, docTheDog] false false =
        [docCatSat, docTheDog].map (fun d => ((0 : ℝ), d))
      ∧ linear_boolean_search [' ', ' '] [docCatSat, docTheDog] false true =
        [docCatSat, docTheDog].map fun d => (0, d) :=
  ⟨degenerate_inputs_spec.2.1 [' ', ' '] [docCatSat, docTheDog] false false (by decide),
    degenerate_inputs_spec.2.2.1 [' ', ' '] [docCatSat, docTheDog] false true (by decide)⟩

/-! ## Claim theorems: Boolean search -/

theorem filter_score_map {α : Type} (P : α → Prop) [DecidablePred P] (l : List α) :
    ((l.map fun a => if P a then ((1 : Nat), a) else (0, a)).filter
        fun r => decide (r.1 = 1)) =
      (l.filter fun a => decide (P a)).map fun a => (1, a) := by
  induction l with
  | nil => rfl
  | cons a l ih => by_cases h : P a <;> simp [h, ih]

/-- C2: with a query that parses to at least one term, a document matches iff
every lowercased (and, in stemmed mode, stemmed) query term occurs in its
lowercased selected view; unstemmed mode returns one scored pair per document
in input order (1 = match, 0 = no match), stemmed mode returns only the
matching documents, each scored 1. -/
theorem linear_boolean_search_spec (query : Word) (collection : List Document)
    (sf : Bool) (hq : splitWS (lowerWord query) ≠ []) :
    (linear_boolean_search query collection sf false =
      collection.map fun doc =>
        (if ∀ t ∈ splitWS (lowerWord query), t ∈ lowered_view doc sf false then 1 else 0,
          doc))
    ∧ linear_boolean_search query collection sf true =
      (collection.filter fun doc =>
          decide (∀ t ∈ (splitWS (lowerWord query)).map stem_term,
            t ∈ lowered_view doc sf true)).map
        fun doc => (1, doc) := by
  constructor
  · unfold linear_boolean_search
    rw [if_neg hq]
    simp only [Bool.false_eq_true, if_false]
    refine List.map_congr_left fun doc _ => ?_
    simp only [List.all_eq_true, decide_eq_true_eq]
    by_cases h : ∀ t ∈ splitWS (lowerWord query), t ∈ lowered_view doc sf false
    · rw [if_pos h, if_pos h]
    · rw [if_neg h, if_neg h]
  · unfold linear_boolean_search
    rw [if_neg hq]
    simp only [if_true]
    have hfun : (collection.map fun doc =>
        if ((splitWS (lowerWord query)).map stem_term).all
            (fun t => decide (t ∈ lowered_view doc sf true)) then ((1 : Nat), doc)
        else (0, doc)) =
        collection.map fun doc =>
          if ∀ t ∈ (splitWS (lowerWord query)).map stem_term,
              t ∈ lowered_view doc sf true then ((1 : Nat), doc)
          else (0, doc) := by
      refine List.map_congr_left fun doc _ => ?_
      by_cases h : ∀ t ∈ (splitWS (lowerWord query)).map stem_term,
          t ∈ lowered_view doc sf true <;>
        simp [h, List.all_eq_true]
    rw [hfun, filter_score_map]

/-- Witness for C2 on the fixture: query `cat dog`, unstemmed raw view; only
document 2 contains both terms. -/
theorem linear_boolean_search_spec_witness :
    splitWS (lowerWord ['c', 'a', 't', ' ', 'd', 'o', 'g']) ≠ [] ∧
      linear_boolean_search ['c', 'a', 't', ' ', 'd', 'o', 'g']
          [docCatSat, docTheDog, docCatDog] false false =
        [docCatSat, docTheDog, docCatDog].map fun doc =>
          (if ∀ t ∈ splitWS (lowerWord ['c', 'a', 't', ' ', 'd', 'o', 'g']),
              t ∈ lowered_view doc false false then 1 else 0, doc) :=
  ⟨by decide,
    (linear_boolean_search_spec ['c', 'a', 't', ' ', 'd', 'o', 'g']
      [docCatSat, docTheDog, docCatDog] false (by decide)).1⟩

/-! ## Claim theorems: vector space model -/

theorem postings_tf_pos {collection : List Document} {sf st : Bool} {q : Word}
    {p : Nat × Nat} (hp : p ∈ postings collection sf st q) : 1 ≤ p.2 := by
  unfold postings at hp
  rcases List.mem_filterMap.mp hp with ⟨doc, _, hdoc⟩
  by_cases hc : term_count doc sf st q ≠ 0
  · rw [if_pos hc] at hdoc
    cases hdoc
    omega
  · rw [if_neg hc] at hdoc
    exact absurd hdoc (by simp)

theorem doc_frequency_pos {collection : List Document} {sf st : Bool} {q : Word}
    {p : Nat × Nat} (hp : p ∈ postings collection sf st q) :
    0 < doc_frequency collection sf st q :=
  List.length_pos.mpr (List.ne_nil_of_mem hp)

theorem doc_scores_eq_formula (collection : List Document) (sf st : Bool)
    (qt : List Word) (id : Nat) :
    doc_scores collection sf st qt id =
      (qt.map fun q =>
        (((postings collection sf st q).filter fun p => decide (p.1 = id)).map
          fun p => (1 + Real.log (p.2 : ℝ)) *
            Real.log ((collection.length : ℝ) /
              (doc_frequency collection sf st q : ℝ))).sum).sum := by
  unfold doc_scores
  congr 1
  refine List.map_congr_left fun q _ => ?_
  congr 1
  refine List.map_congr_left fun p hp => ?_
  have hp' : p ∈ postings collection sf st q := List.mem_of_mem_filter hp
  have h2 : 1 ≤ p.2 := postings_tf_pos hp'
  have hdf : 0 < doc_frequency collection sf st q := doc_frequency_pos hp'
  rw [tf_weight, if_pos (by omega), idf, if_pos hdf]

/-- C1: for a non-empty collection and a query that parses to at least one
term, `vector_space_search` returns exactly one `(score, document)` pair per
collection entry, in input order, where the score of a document sums, over
the query terms present in the index, `(1 + ln tf) * ln(total/df)` for its
posting; every posting has `tf ≥ 1`, and a document occurring in no
query-term posting list scores 0. -/
theorem vector_space_search_characterization (query : Word)
    (collection : List Document) (sf st : Bool) (qt : List Word)
    (hcoll : collection ≠ []) (hq : splitWS (lowerWord query) ≠ [])
    (hqt : qt = if st then (splitWS (lowerWord query)).map stem_term
      else splitWS (lowerWord query)) :
    (vector_space_search query collection sf st =
      collection.map fun doc =>
        ((qt.map fun q =>
          (((postings collection sf st q).filter fun p => decide (p.1 = doc.document_id)).map
            fun p => (1 + Real.log (p.2 : ℝ)) *
              Real.log ((collection.length : ℝ) /
                (doc_frequency collection sf st q : ℝ))).sum).sum, doc))
    ∧ (∀ (q : Word) (p : Nat × Nat), p ∈ postings collection sf st q → 1 ≤ p.2)
    ∧ ∀ doc ∈ collection,
        (∀ q ∈ qt, doc.document_id ∉ (postings collection sf st q).map Prod.fst) →
        doc_scores collection sf st qt doc.document_id = 0 := by
  refine ⟨?_, fun q p hp => postings_tf_pos hp, ?_⟩
  · simp only [vector_space_search]
    rw [if_neg hcoll, if_neg hq, ← hqt]
    exact List.map_congr_left fun doc _ => by
      rw [doc_scores_eq_formula]
  · intro doc _ habs
    unfold doc_scores
    refine List.sum_eq_zero fun x hx => ?_
    rcases List.mem_map.mp hx with ⟨q, hq', rfl⟩
    have hnil : (postings collection sf st q).filter
        (fun p => decide (p.1 = doc.document_id)) = [] := by
      refine List.filter_eq_nil_iff.mpr fun p hp => ?_
      simp only [decide_eq_true_eq]
      intro heq
      exact habs q hq' (heq ▸ List.mem_map_of_mem Prod.fst hp)
    rw [hnil]
    rfl

/-- Witness for C1: query `cat` over the three fixture documents with the
raw unstemmed view. -/
theorem vector_space_search_characterization_witness :
    ([docCatSat, docTheDog, docCatDog] : List Document) ≠ [] ∧
      splitWS (lowerWord ['c', 'a', 't']) ≠ [] ∧
      vector_space_search ['c', 'a', 't'] [docCatSat, docTheDog, docCatDog] false false =
        [docCatSat, docTheDog, docCatDog].map fun doc =>
          (((splitWS (lowerWord ['c', 'a', 't'])).map fun q =>
            (((postings [docCatSat, docTheDog, docCatDog] false false q).filter
                fun p => decide (p.1 = doc.document_id)).map
              fun p => (1 + Real.log (p.2 : ℝ)) *
                Real.log ((([docCatSat, docTheDog, docCatDog] : List Document).length : ℝ) /
                  (doc_frequency [docCatSat, docTheDog, docCatDog] false false q : ℝ))).sum).sum,
            doc) :=
  ⟨by decide, by decide,
    (vector_space_search_characterization ['c', 'a', 't']
      [docCatSat, docTheDog, docCatDog] false false
      (splitWS (lowerWord ['c', 'a', 't'])) (by decide) (by decide) rfl).1⟩

/-! ## Claim theorems: VSM monotonicity -/

theorem postings_append (l₁ l₂ : List Document) (sf st : Bool) (q : Word) :
    postings (l₁ ++ l₂) sf st q = postings l₁ sf st q ++ postings l₂ sf st q :=
  List.filterMap_append l₁ l₂ _

theorem postings_cons (d : Document) (l : List Document) (sf st : Bool) (q : Word) :
    postings (d :: l) sf st q =
      (if term_count d sf st q ≠ 0 then [(d.document_id, term_count d sf st q)] else [])
        ++ postings l sf st q := by
  unfold postings
  rw [List.filterMap_cons]
  by_cases hc : term_count d sf st q ≠ 0
  · rw [if_pos hc]
    simp only [if_pos hc]
    rfl
  · rw [if_neg hc]
    simp only [if_neg hc]
    rfl

theorem postings_fst_mem {l : List Document} {sf st : Bool} {q : Word}
    {p : Nat × Nat} (hp : p ∈ postings l sf st q) :
    p.1 ∈ l.map Document.document_id := by
  unfold postings at hp
  rcases List.mem_filterMap.mp hp with ⟨doc, hdoc, heq⟩
  by_cases hc : term_count doc sf st q ≠ 0
  · rw [if_pos hc] at heq
    cases heq
    exact List.mem_map_of_mem Document.document_id hdoc
  · rw [if_neg hc] at heq
    exact absurd heq (by simp)

theorem postings_filter_middle (pre post : List Document) (x : Document)
    (sf st : Bool) (q : Word) (id : Nat) (hxid : x.document_id = id)
    (hpre : id ∉ pre.map Document.document_id)
    (hpost : id ∉ post.map Document.document_id) :
    (postings (pre ++ x :: post) sf st q).filter (fun p => decide (p.1 = id)) =
      if term_count x sf st q ≠ 0 then [(id, term_count x sf st q)] else [] := by
  rw [postings_append, postings_cons, List.filter_append, List.filter_append]
  have h1 : (postings pre sf st q).filter (fun p => decide (p.1 = id)) = [] := by
    refine List.filter_eq_nil_iff.mpr fun p hp => ?_
    simp only [decide_eq_true_eq]
    intro heq
    exact hpre (heq ▸ postings_fst_mem hp)
  have h2 : (postings post sf st q).filter (fun p => decide (p.1 = id)) = [] := by
    refine List.filter_eq_nil_iff.mpr fun p hp => ?_
    simp only [decide_eq_true_eq]
    intro heq
    exact hpost (heq ▸ postings_fst_mem hp)
  rw [h1, h2, List.append_nil, List.nil_append]
  by_cases hc : term_count x sf st q ≠ 0
  · rw [if_pos hc, if_pos hc, hxid]
    simp
  · rw [if_neg hc, if_neg hc]
    rfl

theorem doc_frequency_middle (pre post : List Document) (x : Document)
    (sf st : Bool) (q : Word) :
    doc_frequency (pre ++ x :: post) sf st q =
      doc_frequency pre sf st q +
        ((if term_count x sf st q ≠ 0 then 1 else 0) + doc_frequency post sf st q) := by
  unfold doc_frequency
  rw [postings_append, postings_cons, List.length_append, List.length_append]
  by_cases hc : term_count x sf st q ≠ 0
  · rw [if_pos hc, if_pos hc]
    rfl
  · rw [if_neg hc, if_neg hc]
    rfl

theorem doc_frequency_le_length (collection : List Document) (sf st : Bool)
    (q : Word) : doc_frequency collection sf st q ≤ collection.length :=
  List.length_filterMap_le _ _

theorem tf_weight_nonneg (tf : Nat) : 0 ≤ tf_weight tf := by
  unfold tf_weight
  by_cases h : 0 < tf
  · rw [if_pos h]
    have : (0 : ℝ) ≤ Real.log (tf : ℝ) := Real.log_nonneg (by exact_mod_cast h)
    linarith
  · rw [if_neg h]

theorem tf_weight_mono {a b : Nat} (h : a ≤ b) : tf_weight a ≤ tf_weight b := by
  unfold tf_weight
  by_cases ha : 0 < a
  · have hb : 0 < b := lt_of_lt_of_le ha h
    rw [if_pos ha, if_pos hb]
    have : Real.log (a : ℝ) ≤ Real.log (b : ℝ) :=
      Real.log_le_log (by exact_mod_cast ha) (by exact_mod_cast h)
    linarith
  · rw [if_neg ha]
    by_cases hb : 0 < b
    · rw [if_pos hb]
      have : (0 : ℝ) ≤ Real.log (b : ℝ) := Real.log_nonneg (by exact_mod_cast hb)
      linarith
    · rw [if_neg hb]

theorem idf_nonneg (collection : List Document) (sf st : Bool) (q : Word) :
    0 ≤ idf collection sf st q := by
  unfold idf
  by_cases h : 0 < doc_frequency collection sf st q
  · rw [if_pos h]
    refine Real.log_nonneg ?_
    rw [one_le_div (by exact_mod_cast h)]
    exact_mod_cast doc_frequency_le_length collection sf st q
  · rw [if_neg h]

theorem getD_middle {α : Type} (pre post : List α) (x dflt : α) :
    (pre ++ x :: post).getD pre.length dflt = x := by
  induction pre with
  | nil => rfl
  | cons a l ih => exact ih

theorem getD_map_middle {α β : Type} (f : α → β) (pre post : List α) (x : α)
    (dflt : β) : ((pre ++ x :: post).map f).getD pre.length dflt = f x := by
  rw [List.map_append, List.map_cons]
  have h := getD_middle (pre.map f) (post.map f) (f x) dflt
  rwa [List.length_map] at h

/-- C8: VSM scoring is monotone in term frequency.  If the modified document
`d'` has the same id as `d`, the same selected-view term counts for every
word other than `t` and at least as many occurrences of `t`, and ids in the
collection are unique (the data-model assumption of §3), then the score
`vector_space_search` assigns at `d`'s position never decreases when `d` is
replaced by `d'`. -/
theorem vector_space_search_monotone (query : Word) (sf st : Bool)
    (pre post : List Document) (d d' : Document) (t : Word)
    (hid : d'.document_id = d.document_id)
    (hnodup : ((pre ++ d :: post).map Document.document_id).Nodup)
    (hct : term_count d sf st t ≤ term_count d' sf st t)
    (hother : ∀ w, w ≠ t → term_count d' sf st w = term_count d sf st w) :
    ((vector_space_search query (pre ++ d :: post) sf st).getD pre.length (0, d)).1 ≤
      ((vector_space_search query (pre ++ d' :: post) sf st).getD pre.length (0, d)).1 := by
  have hCne : pre ++ d :: post ≠ [] := by simp
  have hC'ne : pre ++ d' :: post ≠ [] := by simp
  have hlen : (pre ++ d' :: post).length = (pre ++ d :: post).length := by
    simp
  have hd_notin : d.document_id ∉ pre.map Document.document_id ++
      post.map Document.document_id := by
    rw [List.map_append, List.map_cons] at hnodup
    exact (List.nodup_cons.mp (List.nodup_middle.mp hnodup)).1
  have hpre : d.document_id ∉ pre.map Document.document_id :=
    fun h => hd_notin (List.mem_append.mpr (Or.inl h))
  have hpost : d.document_id ∉ post.map Document.document_id :=
    fun h => hd_notin (List.mem_append.mpr (Or.inr h))
  simp only [vector_space_search]
  rw [if_neg hCne, if_neg hC'ne]
  by_cases hqe : splitWS (lowerWord query) = []
  · rw [if_pos hqe, if_pos hqe, getD_map_middle, getD_map_middle]
  · rw [if_neg hqe, if_neg hqe, getD_map_middle, getD_map_middle]
    simp only
    rw [hid]
    unfold doc_scores
    refine List.sum_le_sum fun q _ => ?_
    have ha : term_count d sf st q ≤ term_count d' sf st q := by
      by_cases hqt : q = t
      · exact hqt ▸ hct
      · exact le_of_eq (hother q hqt).symm
    rw [postings_filter_middle pre post d sf st q d.document_id rfl hpre hpost,
      postings_filter_middle pre post d' sf st q d.document_id hid hpre hpost]
    by_cases hz : term_count d sf st q ≠ 0
    · have hz' : term_count d' sf st q ≠ 0 := by omega
      rw [if_pos hz, if_pos hz']
      simp only [List.map_cons, List.map_nil, List.sum_cons, List.sum_nil, add_zero]
      have hdf : doc_frequency (pre ++ d' :: post) sf st q =
          doc_frequency (pre ++ d :: post) sf st q := by
        rw [doc_frequency_middle, doc_frequency_middle, if_pos hz, if_pos hz']
      have hidf : idf (pre ++ d' :: post) sf st q =
          idf (pre ++ d :: post) sf st q := by
        unfold idf
        rw [hdf, hlen]
      rw [hidf]
      exact mul_le_mul_of_nonneg_right (tf_weight_mono ha)
        (idf_nonneg (pre ++ d :: post) sf st q)
    · rw [if_neg hz]
      simp only [List.map_nil, List.sum_nil]
      by_cases hz' : term_count d' sf st q ≠ 0
      · rw [if_pos hz']
        simp only [List.map_cons, List.map_nil, List.sum_cons, List.sum_nil, add_zero]
        exact mul_nonneg (tf_weight_nonneg _) (idf_nonneg _ sf st q)
      · rw [if_neg hz']
        simp

/-- Witness for C8: document 1 goes from no terms to the single term `dog`
next to fixture document 0, query `dog`. -/
theorem vector_space_search_monotone_witness :
    docDog1.document_id = docNone1.document_id ∧
      (([docCatSat] ++ docNone1 :: []).map Document.document_id).Nodup ∧
      term_count docNone1 false false tDog ≤ term_count docDog1 false false tDog ∧
      ((vector_space_search tDog ([docCatSat] ++ docNone1 :: []) false false).getD
          1 (0, docNone1)).1 ≤
        ((vector_space_search tDog ([docCatSat] ++ docDog1 :: []) false false).getD
          1 (0, docNone1)).1 :=
  ⟨rfl, by decide, by decide,
    vector_space_search_monotone tDog false false [docCatSat] [] docNone1 docDog1 tDog
      rfl (by decide) (by decide)
      (fun w hw => by
        have h1 : term_count docNone1 false false w = 0 := by
          simp [term_count, lowered_view, selected_terms, docNone1, mkDoc]
        have h2 : term_count docDog1 false false w = 0 := by
          have he : lowered_view docDog1 false false = [tDog] := by decide
          rw [term_count, he]
          exact List.count_eq_zero.mpr fun hmem => hw (List.mem_singleton.mp hmem)
        rw [h1, h2])⟩

/-! ## Claim theorems: stemmer invariants -/

theorem endsWith_length {w s : Word} (h : endsWith w s = true) :
    s.length ≤ w.length := by
  have heq := of_decide_eq_true h
  have hlen := congrArg List.length heq
  rw [List.length_drop] at hlen
  omega

theorem take_ne_nil {w : Word} {k : Nat} (hk : 0 < k) (hw : w ≠ []) :
    w.take k ≠ [] := by
  have hwl : 0 < w.length := List.length_pos.mpr hw
  refine List.length_pos.mp ?_
  rw [List.length_take]
  omega

theorem contains_vowel_ne_nil {w : Word} (h : contains_vowel w = true) : w ≠ [] := by
  intro h0
  subst h0
  exact absurd h (by decide)

theorem measure_pos_ne_nil {w : Word} (h : 0 < measure w) : w ≠ [] := by
  intro h0
  subst h0
  exact absurd h (by decide)

theorem edc_length {w : Word} (h : ends_double_consonant w = true) :
    2 ≤ w.length := by
  by_contra hlt
  push_neg at hlt
  unfold ends_double_consonant at h
  rw [if_pos hlt] at h
  exact Bool.false_ne_true h

theorem step1a_ne_nil {w : Word} (h : w ≠ []) : step1a w ≠ [] := by
  have hwl : 0 < w.length := List.length_pos.mpr h
  unfold step1a
  split_ifs with h1 h2 h3 h4
  · have hl : 4 ≤ w.length := endsWith_length h1
    exact take_ne_nil (by omega) h
  · have hl : 3 ≤ w.length := endsWith_length h2
    exact take_ne_nil (by omega) h
  · exact h
  · rw [Bool.and_eq_true] at h4
    have hl : 1 < w.length := of_decide_eq_true h4.2
    exact take_ne_nil (by omega) h
  · exact h

theorem step1bPost_ne_nil {w : Word} (h : w ≠ []) : step1bPost w ≠ [] := by
  unfold step1bPost
  split_ifs with h1 h2 h3 h4 h5
  · simp
  · simp
  · simp
  · rw [Bool.and_eq_true] at h4
    have hl : 2 ≤ w.length := edc_length h4.1
    exact take_ne_nil (by omega) h
  · simp
  · exact h

theorem step1b_ne_nil {w : Word} (h : w ≠ []) : step1b w ≠ [] := by
  unfold step1b
  split_ifs with h1 h2 h3 h4 h5 h6
  · have hl : 3 ≤ w.length := endsWith_length h1
    exact take_ne_nil (by omega) h
  · exact h
  · exact step1bPost_ne_nil (contains_vowel_ne_nil h4)
  · exact h
  · exact step1bPost_ne_nil (contains_vowel_ne_nil h6)
  · exact h
  · exact h

theorem step1c_ne_nil {w : Word} (h : w ≠ []) : step1c w ≠ [] := by
  unfold step1c
  split_ifs with h1
  · simp
  · exact h

theorem applyFirstRule_ne_nil (rules : List (Word × Word)) {w : Word} (h : w ≠ []) :
    applyFirstRule rules w ≠ [] := by
  induction rules with
  | nil => exact h
  | cons r rest ih =>
    unfold applyFirstRule
    split_ifs with h1 h2
    · intro habs
      rcases List.append_eq_nil.mp habs with ⟨ht, -⟩
      exact measure_pos_ne_nil h2 ht
    · exact h
    · exact ih

theorem step4go_ne_nil (sufs : List Word) {w : Word} (h : w ≠ []) :
    step4go sufs w ≠ [] := by
  induction sufs with
  | nil => exact h
  | cons suf rest ih =>
    unfold step4go
    split_ifs with h1 h2 h3 h4
    · exact measure_pos_ne_nil (by omega)
    · exact h
    · exact measure_pos_ne_nil (by omega)
    · exact h
    · exact ih

theorem step5a_ne_nil {w : Word} (h : w ≠ []) : step5a w ≠ [] := by
  unfold step5a
  split_ifs with h1 h2
  · refine measure_pos_ne_nil ?_
    rcases h2 with h2 | ⟨h2, -⟩ <;> omega
  · exact h
  · exact h

theorem step5b_ne_nil {w : Word} (h : w ≠ []) : step5b w ≠ [] := by
  unfold step5b
  split_ifs with h1
  · have hl : 2 ≤ w.length := edc_length h1.2.1
    exact take_ne_nil (by omega) h
  · exact h

theorem step1a_lower {w : Word} (h : LowerAlpha w) : LowerAlpha (step1a w) := by
  unfold step1a
  split_ifs <;> first | exact lowerAlpha_take _ h | exact h

theorem step1bPost_lower {w : Word} (h : LowerAlpha w) : LowerAlpha (step1bPost w) := by
  unfold step1bPost
  split_ifs <;>
    first
    | exact lowerAlpha_append h (by decide)
    | exact lowerAlpha_take _ h
    | exact h

theorem step1b_lower {w : Word} (h : LowerAlpha w) : LowerAlpha (step1b w) := by
  unfold step1b
  split_ifs <;>
    first
    | exact step1bPost_lower (lowerAlpha_take _ h)
    | exact lowerAlpha_take _ h
    | exact h

theorem step1c_lower {w : Word} (h : LowerAlpha w) : LowerAlpha (step1c w) := by
  unfold step1c
  split_ifs
  · exact lowerAlpha_append (lowerAlpha_take _ h) (by decide)
  · exact h

theorem applyFirstRule_lower (rules : List (Word × Word))
    (hr : ∀ r ∈ rules, LowerAlpha r.2) {w : Word} (h : LowerAlpha w) :
    LowerAlpha (applyFirstRule rules w) := by
  induction rules with
  | nil => exact h
  | cons r rest ih =>
    unfold applyFirstRule
    split_ifs
    · exact lowerAlpha_append (lowerAlpha_take _ h)
        (hr r (List.mem_cons_self r rest))
    · exact h
    · exact ih fun x hx => hr x (List.mem_cons_of_mem r hx)

theorem step4go_lower (sufs : List Word) {w : Word} (h : LowerAlpha w) :
    LowerAlpha (step4go sufs w) := by
  induction sufs with
  | nil => exact h
  | cons suf rest ih =>
    unfold step4go
    split_ifs <;> first | exact lowerAlpha_take _ h | exact h | exact ih

theorem step5a_lower {w : Word} (h : LowerAlpha w) : LowerAlpha (step5a w) := by
  unfold step5a
  split_ifs <;> first | exact lowerAlpha_take _ h | exact h

theorem step5b_lower {w : Word} (h : LowerAlpha w) : LowerAlpha (step5b w) := by
  unfold step5b
  split_ifs <;> first | exact lowerAlpha_take _ h | exact h

/-- C10: for every non-empty token, `stem_term` returns a non-empty word all
of whose alphabetic characters are lowercase: the input is lowercased before
any rule applies, every appended fix-up character is lowercase, and every
suffix removal is gated by a measure or contains-vowel condition that keeps
the remaining stem non-empty. -/
theorem stem_term_nonempty_lower (w : Word) (h : w ≠ []) :
    stem_term w ≠ [] ∧ LowerAlpha (stem_term w) := by
  have hlw : lowerWord w ≠ [] := by
    intro habs
    exact h (List.map_eq_nil_iff.mp habs)
  unfold stem_term
  split_ifs with hshort
  · exact ⟨hlw, lowerWord_lowerAlpha w⟩
  · constructor
    · exact step5b_ne_nil (step5a_ne_nil (step4go_ne_nil _
        (applyFirstRule_ne_nil _ (applyFirstRule_ne_nil _
          (step1c_ne_nil (step1b_ne_nil (step1a_ne_nil hlw)))))))
    · exact step5b_lower (step5a_lower (step4go_lower _
        (applyFirstRule_lower step3rules (by decide)
          (applyFirstRule_lower step2rules (by decide)
            (step1c_lower (step1b_lower (step1a_lower (lowerWord_lowerAlpha w))))))))

/-- Witness for C10 at the concrete token `CaT`. -/
theorem stem_term_nonempty_lower_witness :
    (['C', 'a', 'T'] : Word) ≠ [] ∧
      stem_term ['C', 'a', 'T'] ≠ [] ∧ LowerAlpha (stem_term ['C', 'a', 'T']) :=
  ⟨by decide, stem_term_nonempty_lower ['C', 'a', 'T'] (by decide)⟩

end IR

